import Mathlib

/-!
Shallow embedding of the secret-encryption subsystem of the repository
(CryptoManager, CryptoService, SecureKeyGenerator, EnvironmentFileParser,
EncryptionManager) together with proofs of the specification claims.

Strings of the source (JavaScript/TypeScript) are embedded as `List Char`;
byte buffers (`Buffer` / `Uint8Array`) as `List Nat` together with explicit
`< 256` bounds where they matter.  Platform cryptographic primitives
(AES-GCM via WebCrypto, Argon2id, HMAC-SHA-256, TextEncoder/TextDecoder,
the CSPRNG) are external collaborators of this subsystem and are embedded
as parameters of a `CryptoPrimitives` structure; every piece of logic the
repository itself implements (wire format, base64 validation, parsing,
orchestration, comparison) is translated directly from the source.
Fallible code returns `Except CryptoErr`.
-/

/-- JS strings are sequences of UTF-16 code units; all characters relevant
here are ASCII, so a `List Char` embedding is faithful. -/
abbrev Str := List Char

/-- Byte buffers (`Buffer`, `Uint8Array`, `ArrayBuffer`). -/
abbrev Bytes := List Nat

/-- The characters removed by JavaScript's `String.prototype.trim`
(ECMAScript WhiteSpace and LineTerminator code points). -/
def isJsWhitespace (c : Char) : Bool :=
  c = ' ' ∨ c = '\t' ∨ c = '\n' ∨ c = '\r' ∨
  c.toNat = 0xb ∨ c.toNat = 0xc ∨ c.toNat = 0xa0 ∨ c.toNat = 0x1680 ∨
  (0x2000 ≤ c.toNat ∧ c.toNat ≤ 0x200a) ∨ c.toNat = 0x2028 ∨
  c.toNat = 0x2029 ∨ c.toNat = 0x202f ∨ c.toNat = 0x205f ∨
  c.toNat = 0x3000 ∨ c.toNat = 0xfeff

/-- `s.trimEnd()`. -/
def jsTrimRight (s : Str) : Str :=
  (s.reverse.dropWhile isJsWhitespace).reverse

/-- `s.trim()`: drop leading and trailing JS whitespace. -/
def jsTrim (s : Str) : Str :=
  (jsTrimRight s).dropWhile isJsWhitespace

/-- `s.split(sep)` for a single-character separator, with JavaScript
semantics: splitting the empty string yields `[""]`. -/
def splitOnCharAux (sep : Char) : List Char → Str → List Str
  | [], acc => [acc.reverse]
  | c :: rest, acc =>
    if c = sep then acc.reverse :: splitOnCharAux sep rest []
    else splitOnCharAux sep rest (c :: acc)

/-- `s.split(sep)` for a single-character separator. -/
def splitOnChar (sep : Char) (s : Str) : List Str :=
  splitOnCharAux sep s []

/-- The standard base64 alphabet, index `n` holding the digit of value `n`. -/
def b64Alphabet : Str :=
  "ABCDEFGHIJKLMNOPQRSTUVWXYZabcdefghijklmnopqrstuvwxyz0123456789+/".toList

/-- Base64 digit of a 6-bit value. -/
def encChar (n : Nat) : Char := b64Alphabet.getD n 'A'

/-- Value of a base64 digit (used by the decoder; `'='` and foreign
characters map to 0, matching Node's lenient decoder on the inputs that
reach it, which have all been validated). -/
def decVal (c : Char) : Nat :=
  (b64Alphabet.indexOf c) % 64

/-- `Buffer.prototype.toString('base64')`: standard base64 with padding. -/
def base64Encode : Bytes → Str
  | [] => []
  | [b1] =>
    [encChar (b1 / 4), encChar (b1 % 4 * 16), '=', '=']
  | [b1, b2] =>
    [encChar (b1 / 4), encChar (b1 % 4 * 16 + b2 / 16), encChar (b2 % 16 * 4), '=']
  | b1 :: b2 :: b3 :: rest =>
    encChar (b1 / 4) :: encChar (b1 % 4 * 16 + b2 / 16) ::
      encChar (b2 % 16 * 4 + b3 / 64) :: encChar (b3 % 64) :: base64Encode rest

/-- `Buffer.from(s, 'base64')` on well-formed (validated) input: groups of
four digits, with `'='` padding ending the data. -/
def base64Decode : Str → Bytes
  | c1 :: c2 :: c3 :: c4 :: rest =>
    if c3 = '=' then
      [decVal c1 * 4 + decVal c2 / 16]
    else if c4 = '=' then
      [decVal c1 * 4 + decVal c2 / 16, decVal c2 % 16 * 16 + decVal c3 / 4]
    else
      (decVal c1 * 4 + decVal c2 / 16) :: (decVal c2 % 16 * 16 + decVal c3 / 4) ::
        (decVal c3 % 4 * 64 + decVal c4) :: base64Decode rest
  | _ => []

/-- A character matched by the class `[A-Za-z0-9+/]` of the source's
`base64Regex`. -/
def isB64Char (c : Char) : Bool :=
  ('A' ≤ c ∧ c ≤ 'Z') ∨ ('a' ≤ c ∧ c ≤ 'z') ∨ ('0' ≤ c ∧ c ≤ '9') ∨
  c = '+' ∨ c = '/'

/-- `/^[A-Za-z0-9+\/]*={0,2}$/.test s`: since `'='` is outside the starred
class and the pattern is anchored, a match exists exactly when what follows
the maximal run of class characters is at most two `'='`. -/
def base64RegexTest (s : Str) : Bool :=
  let rest := s.dropWhile isB64Char
  rest = [] ∨ rest = ['='] ∨ rest = ['=', '=']

/-- `SECURITY_CONSTANTS.FORMAT.PREFIX`, the literal `"ENC2:"`. -/
def encHeader : Str := ['E', 'N', 'C', '2', ':']

/-- Error taxonomy of the subsystem (each constructor stands for one
`logAndThrow` / rethrow site of the source). -/
inductive CryptoErr where
  | invalidInput
  | invalidSecretKey
  | invalidSalt
  | keyDerivation
  | invalidFormat
  | missingComponents
  | invalidComponent
  | hmacMismatch
  | decryptionFailed
  | cipherFailure
  | reEncryptDecryptFailed
deriving DecidableEq, Repr

/-- The platform cryptographic primitives the subsystem composes (Argon2id,
WebCrypto AES-GCM, HMAC-SHA-256, TextEncoder/TextDecoder).  They are
external collaborators; the claims' proofs state explicitly which of their
properties are assumed.  Argument orders follow the source call sites:
`encryptBuffer(webCryptoIv, key, value)`, `decryptBuffer(ivBuffer, key,
cipherBuffer)`, `argon2.hash(secretKey, {salt, ...})`. -/
structure CryptoPrimitives where
  argon2Raw : Str → Bytes → Except Unit Bytes
  aesGcmEncrypt : Bytes → Bytes → Bytes → Bytes
  aesGcmDecrypt : Bytes → Bytes → Bytes → Except Unit Bytes
  hmacSha256 : Bytes → Bytes → Bytes
  utf8Encode : Str → Bytes
  utf8Decode : Bytes → Str

namespace CryptoManager

/-- `CryptoManager.isValidBase64`: non-empty, matches the base64 regex,
length divisible by 4.  (The final `Buffer.from` probe of the source never
throws, so the `try` contributes no further rejection.) -/
def isValidBase64 (value : Str) : Bool :=
  if value = [] then false
  else if ¬ base64RegexTest value then false
  else if value.length % 4 ≠ 0 then false
  else true

/-- `CryptoManager.isEncrypted`: prefix present, the remainder splits on
`':'` into exactly `EXPECTED_PARTS = 4` parts, every part non-empty and
valid base64.  Total, hence the non-throwing probe of the spec. -/
def isEncrypted (value : Str) : Bool :=
  if value = [] then false
  else if ¬ encHeader.isPrefixOf value then false
  else
    let encryptedPart := value.drop encHeader.length
    let parts := splitOnChar ':' encryptedPart
    parts.length == 4 && parts.all (fun part => !(part == []) && isValidBase64 part)

/-- `CryptoManager.validateSecretKey`: non-empty and at least 16 chars. -/
def validateSecretKey (secretKey : Str) : Except CryptoErr Unit :=
  if secretKey = [] then .error .invalidSecretKey
  else if secretKey.length < 16 then .error .invalidSecretKey
  else .ok ()

/-- `CryptoManager.validateInputs`: value and secret key non-empty. -/
def validateInputs (value secretKey : Str) : Except CryptoErr Unit :=
  if value = [] then .error .invalidInput
  else if secretKey = [] then .error .invalidInput
  else .ok ()

/-- `CryptoManager.computeHMAC`: HMAC-SHA-256 signature, base64-encoded. -/
def computeHMAC (P : CryptoPrimitives) (key : Bytes) (data : Bytes) : Str :=
  base64Encode (P.hmacSha256 key data)

/-- `CryptoManager.constantTimeCompare`: length check, then an OR-fold of
XORed char codes compared with zero. -/
def constantTimeCompare (firstValue secondValue : Str) : Bool :=
  if firstValue.length ≠ secondValue.length then false
  else
    ((firstValue.zip secondValue).foldl
      (fun comparisonResult p => comparisonResult ||| (p.1.toNat ^^^ p.2.toNat)) 0) == 0

/-- `CryptoManager.deriveKeysWithArgon2`: validate the base64 salt, decode
it, run Argon2id (hashLength 64 = SECRET_KEY 32 + HMAC_KEY_LENGTH 32), and
split the output into the encryption key and the HMAC key. -/
def deriveKeysWithArgon2 (P : CryptoPrimitives) (secretKey salt : Str) :
    Except CryptoErr (Bytes × Bytes) :=
  if salt = [] then .error .invalidSalt
  else if ¬ isValidBase64 salt then .error .invalidSalt
  else
    let saltBuffer := base64Decode salt
    match P.argon2Raw secretKey saltBuffer with
    | .error _ => .error .keyDerivation
    | .ok derivedKeyBuffer => .ok (derivedKeyBuffer.take 32, derivedKeyBuffer.drop 32)

/-- `CryptoManager.formatEncryptedPayload`:
`"ENC2:" + salt + ":" + iv + ":" + cipherText + ":" + hmacBase64`. -/
def formatEncryptedPayload (salt iv cipherText hmacBase64 : Str) : Str :=
  encHeader ++ salt ++ ':' :: iv ++ ':' :: cipherText ++ ':' :: hmacBase64

/-- `CryptoManager.createEncryptedPayload`: encrypt, base64-encode the
parts, HMAC over decoded `salt ‖ iv ‖ cipherText`, and format. -/
def createEncryptedPayload (P : CryptoPrimitives) (value salt : Str)
    (webCryptoIv encryptionKey hmacKey : Bytes) : Str :=
  let cipherText := base64Encode (P.aesGcmEncrypt webCryptoIv encryptionKey (P.utf8Encode value))
  let iv := base64Encode webCryptoIv
  let dataToHmac := base64Decode salt ++ base64Decode iv ++ base64Decode cipherText
  let hmacBase64 := computeHMAC P hmacKey dataToHmac
  formatEncryptedPayload salt iv cipherText hmacBase64

/-- `CryptoManager.parseEncryptedData` (with its helpers
`validateEncryptedFormat`, `validatePartCount`, `validateRequiredParts`,
`validateBase64Components`). -/
def parseEncryptedData (encryptedData : Str) :
    Except CryptoErr (Str × Str × Str × Str) :=
  if ¬ encHeader.isPrefixOf encryptedData then .error .invalidFormat
  else
    let encryptedPart := encryptedData.drop encHeader.length
    match splitOnChar ':' encryptedPart with
    | [salt, iv, cipherText, receivedHmac] =>
      if salt = [] ∨ iv = [] ∨ cipherText = [] ∨ receivedHmac = [] then
        .error .missingComponents
      else if ¬ isValidBase64 salt then .error .invalidComponent
      else if ¬ isValidBase64 iv then .error .invalidComponent
      else if ¬ isValidBase64 cipherText then .error .invalidComponent
      else if ¬ isValidBase64 receivedHmac then .error .invalidComponent
      else .ok (salt, iv, cipherText, receivedHmac)
    | _ => .error .invalidFormat

/-- `CryptoManager.prepareHMACData`: concatenation of the decoded parts. -/
def prepareHMACData (salt iv cipherText : Str) : Bytes :=
  base64Decode salt ++ base64Decode iv ++ base64Decode cipherText

/-- `CryptoManager.verifyHMAC`: recompute and compare in constant time;
throw on mismatch. -/
def verifyHMAC (P : CryptoPrimitives) (salt iv cipherText receivedHmac : Str)
    (hmacKey : Bytes) : Except CryptoErr Unit :=
  let computedHmac := computeHMAC P hmacKey (prepareHMACData salt iv cipherText)
  if constantTimeCompare computedHmac receivedHmac then .ok ()
  else .error .hmacMismatch

/-- `CryptoManager.performDecryption`: decode iv and ciphertext, AES-GCM
decrypt. -/
def performDecryption (P : CryptoPrimitives) (iv : Str) (encryptionKey : Bytes)
    (cipherText : Str) : Except CryptoErr Bytes :=
  match P.aesGcmDecrypt (base64Decode iv) encryptionKey (base64Decode cipherText) with
  | .error _ => .error .decryptionFailed
  | .ok plainBuffer => .ok plainBuffer

end CryptoManager

namespace CryptoService

/-- `CryptoService.encrypt`.  The secret key (looked up from the base
environment file in the source) and the fresh salt/IV bytes (from the
CSPRNG) are passed explicitly. -/
def encrypt (P : CryptoPrimitives) (value secretKey : Str)
    (saltBytes ivBytes : Bytes) : Except CryptoErr Str := do
  CryptoManager.validateSecretKey secretKey
  CryptoManager.validateInputs value secretKey
  let salt := base64Encode saltBytes
  let (encryptionKey, hmacKey) ← CryptoManager.deriveKeysWithArgon2 P secretKey salt
  return CryptoManager.createEncryptedPayload P value salt ivBytes encryptionKey hmacKey

/-- `CryptoService.decrypt`.  (The source calls `verifyHMAC` without
`await`; on the successful round-trip path settled here the sequenced model
and the source agree.) -/
def decrypt (P : CryptoPrimitives) (encryptedData secretKey : Str) :
    Except CryptoErr Str := do
  CryptoManager.validateSecretKey secretKey
  CryptoManager.validateInputs encryptedData secretKey
  let (salt, iv, cipherText, receivedHmac) ← CryptoManager.parseEncryptedData encryptedData
  let (encryptionKey, hmacKey) ← CryptoManager.deriveKeysWithArgon2 P secretKey salt
  CryptoManager.verifyHMAC P salt iv cipherText receivedHmac hmacKey
  let decryptedBuffer ← CryptoManager.performDecryption P iv encryptionKey cipherText
  return P.utf8Decode decryptedBuffer

end CryptoService

/-- `logAndThrow` of `SecureKeyGenerator.validateLength`. -/
inductive KeyGenErr where
  | invalidLength
deriving DecidableEq, Repr

namespace SecureKeyGenerator

/-- `SecureKeyGenerator.validateLength`: rejects non-integers, lengths
below `MIN_SECURE_LENGTH = 8` and above `MAX_REASONABLE_LENGTH = 1024`.
JS numbers are embedded as rationals; `Number.isInteger` is `den = 1`. -/
def validateLength (length : ℚ) : Except KeyGenErr Unit :=
  if ¬ (length.den = 1) then .error .invalidLength
  else if length < 8 then .error .invalidLength
  else if length > 1024 then .error .invalidLength
  else .ok ()

/-- `SecureKeyGenerator.generateBase64IV` (default length `IV = 16`), with
the CSPRNG `crypto.randomBytes` passed as a collaborator. -/
def generateBase64IV (randomBytes : ℕ → Bytes) (length : ℚ := 16) :
    Except KeyGenErr Str := do
  validateLength length
  return base64Encode (randomBytes length.num.toNat)

/-- `SecureKeyGenerator.generateWebCryptoIV` (default length
`WEB_CRYPTO_IV = 12`), returning raw bytes. -/
def generateWebCryptoIV (randomBytes : ℕ → Bytes) (length : ℚ := 12) :
    Except KeyGenErr Bytes := do
  validateLength length
  return randomBytes length.num.toNat

/-- `SecureKeyGenerator.generateBase64Salt` (default length `SALT = 32`). -/
def generateBase64Salt (randomBytes : ℕ → Bytes) (length : ℚ := 32) :
    Except KeyGenErr Str := do
  validateLength length
  return base64Encode (randomBytes length.num.toNat)

/-- `SecureKeyGenerator.generateBase64SecretKey` (default length
`SECRET_KEY = 32`). -/
def generateBase64SecretKey (randomBytes : ℕ → Bytes) (length : ℚ := 32) :
    Except KeyGenErr Str := do
  validateLength length
  return base64Encode (randomBytes length.num.toNat)

end SecureKeyGenerator

namespace EnvironmentFileParser

/-- First character of `SECURITY_CONSTANTS.VALIDATION.ENV_VAR_KEY_PATTERN`
(`/^[A-Z_][A-Z0-9_]*$/i`): an ASCII letter or underscore. -/
def isKeyHeadChar (c : Char) : Bool :=
  ('A' ≤ c ∧ c ≤ 'Z') ∨ ('a' ≤ c ∧ c ≤ 'z') ∨ c = '_'

/-- Tail character of the key pattern: letter, digit or underscore. -/
def isKeyTailChar (c : Char) : Bool :=
  isKeyHeadChar c ∨ ('0' ≤ c ∧ c ≤ '9')

/-- `ENV_VAR_KEY_PATTERN.test key`. -/
def envVarKeyPatternTest (key : Str) : Bool :=
  match key with
  | [] => false
  | c :: rest => isKeyHeadChar c && rest.all isKeyTailChar

/-- `EnvironmentFileParser.parseEnvironmentLine`: skip blank lines,
comments and lines without `'='`; split at the first `'='`; trim and
validate the key. -/
def parseEnvironmentLine (line : Str) : Option (Str × Str) :=
  let trimmedLine := jsTrim line
  if trimmedLine = [] then none
  else if trimmedLine.head? = some '#' then none
  else if ¬ trimmedLine.contains '=' then none
  else
    let equalIndex := (trimmedLine.takeWhile (· ≠ '=')).length
    let key := jsTrim (trimmedLine.take equalIndex)
    let value := trimmedLine.drop (equalIndex + 1)
    if key = [] then none
    else if ¬ envVarKeyPatternTest key then none
    else some (key, value)

/-- Assignment `record[key] = value` on a JS object embedded as an ordered
association list: an existing key keeps its position and gets the new
value, a new key is appended. -/
def recordSet (m : List (Str × Str)) (key value : Str) : List (Str × Str) :=
  if m.any (fun p => p.1 == key) then
    m.map (fun p => if p.1 == key then (key, value) else p)
  else m ++ [(key, value)]

/-- `EnvironmentFileParser.extractEnvironmentVariables`: fold the parsed
lines into the variable map (duplicate keys warn and keep the later
value). -/
def extractEnvironmentVariables (lines : List Str) : List (Str × Str) :=
  lines.foldl
    (fun vars line =>
      match parseEnvironmentLine line with
      | none => vars
      | some (key, value) => recordSet vars key value)
    []

/-- The replacement test of `updateEnvironmentFileLines`:
`line.trim().startsWith(envVariable + "=")`. -/
def lineMatches (envVariable line : Str) : Bool :=
  (envVariable ++ ['=']).isPrefixOf (jsTrim line)

/-- `EnvironmentFileParser.updateEnvironmentFileLines`: map over all lines
replacing each matching one (the source's `wasUpdated` flag set inside the
`map` callback is equivalently the `any` below); append the assignment when
no line matched. -/
def updateEnvironmentFileLines (existingLines : List Str) (envVariable value : Str) :
    List Str :=
  let updatedLines := existingLines.map
    (fun line => if lineMatches envVariable line then envVariable ++ '=' :: value else line)
  if existingLines.any (fun line => lineMatches envVariable line) then updatedLines
  else updatedLines ++ [envVariable ++ '=' :: value]

/-- `EnvironmentFileParser.findEnvironmentVariableByKey`: exact key match
first, then fall back to the first entry whose value equals the lookup. -/
def findEnvironmentVariableByKey (allEnvVariables : List (Str × Str))
    (lookupValue : Str) : List (Str × Str) :=
  match allEnvVariables.find? (fun p => p.1 == lookupValue) with
  | some p => [(lookupValue, p.2)]
  | none =>
    match allEnvVariables.find? (fun p => p.2 == lookupValue) with
    | some p => [p]
    | none => []

end EnvironmentFileParser

namespace EncryptionManager

/-- `EncryptionManager.isAlreadyEncrypted`: prefix probe only. -/
def isAlreadyEncrypted (value : Str) : Bool :=
  if value = [] then false
  else encHeader.isPrefixOf value

/-- `EncryptionManager.resolveVariablesToEncrypt`: all variables when no
explicit list is given (or it is empty); otherwise accumulate the
resolution of each requested name, skipping (with a warning) names that
resolve to nothing. -/
def resolveVariablesToEncrypt (allEnvVariables : List (Str × Str))
    (envVariables : Option (List Str)) : List (Str × Str) :=
  match envVariables with
  | none => allEnvVariables
  | some [] => allEnvVariables
  | some names =>
    names.foldl
      (fun variablesToEncrypt lookupValue =>
        match EnvironmentFileParser.findEnvironmentVariableByKey allEnvVariables lookupValue with
        | [] => variablesToEncrypt
        | (key, value) :: _ => EnvironmentFileParser.recordSet variablesToEncrypt key value)
      []

/-- One iteration of the `for (const [key, value] of ...)` loop of
`encryptVariableValuesInFileLines`, over the state
`(updatedLines, encryptedCount, reEncryptedCount)`.  `encryptValue` and
`decryptValue` stand for `CryptoService.encrypt` / `CryptoService.decrypt`
with the secret-key variable fixed. -/
def encryptLoopStep (encryptValue decryptValue : Str → Except CryptoErr Str)
    (forceReEncryption : Bool) (st : List Str × ℕ × ℕ) (kv : Str × Str) :
    Except CryptoErr (List Str × ℕ × ℕ) :=
  let (key, value) := kv
  let (updatedLines, encryptedCount, reEncryptedCount) := st
  if value = [] then .ok (updatedLines, encryptedCount, reEncryptedCount)
  else
    let trimmedValue := jsTrim value
    let isCurrentlyEncrypted := isAlreadyEncrypted trimmedValue
    if isCurrentlyEncrypted && !forceReEncryption then
      .ok (updatedLines, encryptedCount, reEncryptedCount)
    else do
      let valueToEncrypt ←
        if forceReEncryption && isCurrentlyEncrypted then
          match decryptValue trimmedValue with
          | .error _ => .error CryptoErr.reEncryptDecryptFailed
          | .ok plain => .ok plain
        else .ok trimmedValue
      let encryptedValue ← encryptValue valueToEncrypt
      let newLines := EnvironmentFileParser.updateEnvironmentFileLines updatedLines key encryptedValue
      if isCurrentlyEncrypted then .ok (newLines, encryptedCount, reEncryptedCount + 1)
      else .ok (newLines, encryptedCount + 1, reEncryptedCount)

/-- `EncryptionManager.encryptVariableValuesInFileLines`: run the loop over
the selected variables; the returned count is
`encryptedCount + reEncryptedCount`.  A failure of any variable's
decrypt/encrypt step aborts the whole computation. -/
def encryptVariableValuesInFileLines (encryptValue decryptValue : Str → Except CryptoErr Str)
    (forceReEncryption : Bool) (envFileLines : List Str)
    (variablesToEncrypt : List (Str × Str)) : Except CryptoErr (List Str × ℕ) := do
  let (updatedLines, encryptedCount, reEncryptedCount) ←
    variablesToEncrypt.foldlM (encryptLoopStep encryptValue decryptValue forceReEncryption)
      (envFileLines, 0, 0)
  return (updatedLines, encryptedCount + reEncryptedCount)

/-- `EncryptionManager.encryptAndUpdateEnvironmentVariables` over in-memory
lines: the result is `some newLines` exactly when the file is written back
(`writeEnvironmentFileLines` is reached), `none` when the run ends without
a write. -/
def encryptAndUpdateEnvironmentVariables (encryptValue decryptValue : Str → Except CryptoErr Str)
    (envFileLines : List Str) (envVariables : Option (List Str))
    (forceReEncryption : Bool) : Except CryptoErr (Option (List Str)) := do
  let allEnvVariables := EnvironmentFileParser.extractEnvironmentVariables envFileLines
  if allEnvVariables = [] then return none
  else
    let variablesToEncrypt := resolveVariablesToEncrypt allEnvVariables envVariables
    if variablesToEncrypt = [] then return none
    else
      let (updatedLines, encryptedCount) ←
        encryptVariableValuesInFileLines encryptValue decryptValue forceReEncryption
          envFileLines variablesToEncrypt
      if encryptedCount > 0 then return some updatedLines
      else return none

end EncryptionManager

/-- Byte serialization of one character used by the concrete witness
instantiation of `TextEncoder` below: four big-endian base-256 digits of
the code point. -/
def charBytes (c : Char) : Bytes :=
  [c.toNat / 16777216, c.toNat / 65536 % 256, c.toNat / 256 % 256, c.toNat % 256]

/-- Inverse of `charBytes`, consuming four bytes per character. -/
def charUnbytes : Bytes → Str
  | b1 :: b2 :: b3 :: b4 :: rest =>
    Char.ofNat (b1 * 16777216 + b2 * 65536 + b3 * 256 + b4) :: charUnbytes rest
  | _ => []

/-- A concrete instantiation of the external cryptographic primitives,
used to evaluate the parameterized model on closed inputs: the "cipher"
appends a 16-byte tag, the KDF and MAC are constant, and text encoding is
the 4-byte serialization above.  It satisfies every property the theorems
assume of the real primitives. -/
def toyPrimitives : CryptoPrimitives where
  argon2Raw := fun _ _ => .ok (List.replicate 64 0)
  aesGcmEncrypt := fun _ _ value => value ++ List.replicate 16 0
  aesGcmDecrypt := fun _ _ cipherBuffer => .ok (cipherBuffer.take (cipherBuffer.length - 16))
  hmacSha256 := fun _ _ => List.replicate 32 0
  utf8Encode := fun s => (s.map charBytes).flatten
  utf8Decode := charUnbytes

/-! ### Helper lemmas -/

theorem nat_or_eq_zero {x y : ℕ} : x ||| y = 0 ↔ x = 0 ∧ y = 0 := by
  constructor
  · intro h
    have hx : ∀ i, x.testBit i = false := by
      intro i
      have hb : (x ||| y).testBit i = false := by rw [h]; exact Nat.zero_testBit i
      rw [Nat.testBit_or] at hb
      exact (Bool.or_eq_false_iff.mp hb).1
    have hy : ∀ i, y.testBit i = false := by
      intro i
      have hb : (x ||| y).testBit i = false := by rw [h]; exact Nat.zero_testBit i
      rw [Nat.testBit_or] at hb
      exact (Bool.or_eq_false_iff.mp hb).2
    exact ⟨Nat.zero_of_testBit_eq_false hx, Nat.zero_of_testBit_eq_false hy⟩
  · rintro ⟨rfl, rfl⟩; rfl

theorem decVal_encChar : ∀ n, n < 64 → decVal (encChar n) = n := by decide

theorem encChar_ne_pad : ∀ n, n < 64 → encChar n ≠ '=' := by decide

theorem isB64Char_encChar : ∀ n, n < 64 → isB64Char (encChar n) = true := by decide

theorem encChar_mem_or_default (n : ℕ) : encChar n ∈ b64Alphabet ∨ encChar n = 'A' := by
  by_cases h : n < b64Alphabet.length
  · left
    rw [encChar, List.getD_eq_getElem _ _ h]
    exact List.getElem_mem h
  · right
    rw [encChar, List.getD_eq_default _ _ (Nat.le_of_not_lt h)]

theorem encChar_ne_colon (n : ℕ) : encChar n ≠ ':' := by
  rcases encChar_mem_or_default n with h | h
  · intro hc
    rw [hc] at h
    revert h
    decide
  · rw [h]
    decide

theorem pack_div {k : ℕ} (hk : 0 < k) (x y : ℕ) (hy : y < k) : (x * k + y) / k = x := by
  rw [Nat.mul_comm x k, Nat.mul_add_div hk, Nat.div_eq_of_lt hy]
  omega

theorem pack_mod (k x y : ℕ) (hy : y < k) : (x * k + y) % k = y := by
  rw [Nat.mul_comm x k, Nat.mul_add_mod, Nat.mod_eq_of_lt hy]

theorem base64Decode_encode : ∀ (bytes : Bytes), (∀ b ∈ bytes, b < 256) →
    base64Decode (base64Encode bytes) = bytes
  | [], _ => rfl
  | [b1], h => by
    have hb1 : b1 < 256 := h b1 (by simp)
    have e1 := decVal_encChar (b1 / 4) (by omega)
    have e2 := decVal_encChar (b1 % 4 * 16) (by omega)
    have h16 : b1 % 4 * 16 / 16 = b1 % 4 := Nat.mul_div_cancel _ (by norm_num)
    show base64Decode [encChar (b1 / 4), encChar (b1 % 4 * 16), '=', '='] = [b1]
    simp only [base64Decode, if_true]
    simp only [e1, e2, h16, List.cons.injEq, and_true]
    omega
  | [b1, b2], h => by
    have hb1 : b1 < 256 := h b1 (by simp)
    have hb2 : b2 < 256 := h b2 (by simp)
    have e1 := decVal_encChar (b1 / 4) (by omega)
    have e2 := decVal_encChar (b1 % 4 * 16 + b2 / 16) (by omega)
    have e3 := decVal_encChar (b2 % 16 * 4) (by omega)
    have n3 := encChar_ne_pad (b2 % 16 * 4) (by omega)
    have d1 : (b1 % 4 * 16 + b2 / 16) / 16 = b1 % 4 :=
      pack_div (by norm_num) (b1 % 4) (b2 / 16) (by omega)
    have m1 : (b1 % 4 * 16 + b2 / 16) % 16 = b2 / 16 :=
      pack_mod 16 (b1 % 4) (b2 / 16) (by omega)
    have h4 : b2 % 16 * 4 / 4 = b2 % 16 := Nat.mul_div_cancel _ (by norm_num)
    show base64Decode [encChar (b1 / 4), encChar (b1 % 4 * 16 + b2 / 16),
        encChar (b2 % 16 * 4), '='] = [b1, b2]
    simp only [base64Decode]
    rw [if_neg n3]
    simp only [if_true, e1, e2, e3, d1, m1, h4, List.cons.injEq, and_true]
    exact ⟨by omega, by omega⟩
  | b1 :: b2 :: b3 :: rest, h => by
    have hb1 : b1 < 256 := h b1 (by simp)
    have hb2 : b2 < 256 := h b2 (by simp)
    have hb3 : b3 < 256 := h b3 (by simp)
    have e1 := decVal_encChar (b1 / 4) (by omega)
    have e2 := decVal_encChar (b1 % 4 * 16 + b2 / 16) (by omega)
    have e3 := decVal_encChar (b2 % 16 * 4 + b3 / 64) (by omega)
    have e4 := decVal_encChar (b3 % 64) (by omega)
    have n3 := encChar_ne_pad (b2 % 16 * 4 + b3 / 64) (by omega)
    have n4 := encChar_ne_pad (b3 % 64) (by omega)
    have ih := base64Decode_encode rest (fun b hb => h b (by simp [hb]))
    have d1 : (b1 % 4 * 16 + b2 / 16) / 16 = b1 % 4 :=
      pack_div (by norm_num) (b1 % 4) (b2 / 16) (by omega)
    have m1 : (b1 % 4 * 16 + b2 / 16) % 16 = b2 / 16 :=
      pack_mod 16 (b1 % 4) (b2 / 16) (by omega)
    have d2 : (b2 % 16 * 4 + b3 / 64) / 4 = b2 % 16 :=
      pack_div (by norm_num) (b2 % 16) (b3 / 64) (by omega)
    have m2 : (b2 % 16 * 4 + b3 / 64) % 4 = b3 / 64 :=
      pack_mod 4 (b2 % 16) (b3 / 64) (by omega)
    show base64Decode (encChar (b1 / 4) :: encChar (b1 % 4 * 16 + b2 / 16) ::
        encChar (b2 % 16 * 4 + b3 / 64) :: encChar (b3 % 64) :: base64Encode rest) =
      b1 :: b2 :: b3 :: rest
    simp only [base64Decode]
    rw [if_neg n3, if_neg n4]
    simp only [e1, e2, e3, e4, ih, d1, m1, d2, m2, List.cons.injEq]
    exact ⟨by omega, by omega, by omega, by simp⟩

theorem base64Encode_ne_nil : ∀ (bytes : Bytes), bytes ≠ [] → base64Encode bytes ≠ []
  | [], h => absurd rfl h
  | [_], _ => by simp [base64Encode]
  | [_, _], _ => by simp [base64Encode]
  | _ :: _ :: _ :: _, _ => by simp [base64Encode]

theorem colon_not_mem_base64Encode : ∀ (bytes : Bytes), ':' ∉ base64Encode bytes
  | [] => by simp [base64Encode]
  | [b1] => by
    simp only [base64Encode, List.mem_cons, List.not_mem_nil, or_false]
    rintro (h | h | h | h) <;>
      first
        | exact encChar_ne_colon _ h.symm
        | exact absurd h (by decide)
  | [b1, b2] => by
    simp only [base64Encode, List.mem_cons, List.not_mem_nil, or_false]
    rintro (h | h | h | h) <;>
      first
        | exact encChar_ne_colon _ h.symm
        | exact absurd h (by decide)
  | b1 :: b2 :: b3 :: rest => by
    have ih := colon_not_mem_base64Encode rest
    simp only [base64Encode, List.mem_cons]
    rintro (h | h | h | h | h) <;>
      first
        | exact encChar_ne_colon _ h.symm
        | exact ih h

theorem isB64Char_pad : isB64Char '=' = false := by decide

theorem length_base64Encode_mod4 : ∀ (bytes : Bytes), (base64Encode bytes).length % 4 = 0
  | [] => rfl
  | [_] => by simp [base64Encode]
  | [_, _] => by simp [base64Encode]
  | _ :: _ :: _ :: rest => by
    have ih := length_base64Encode_mod4 rest
    simp only [base64Encode, List.length_cons]
    omega

theorem dropWhile_isB64_base64Encode : ∀ (bytes : Bytes), (∀ b ∈ bytes, b < 256) →
    (base64Encode bytes).dropWhile isB64Char = [] ∨
    (base64Encode bytes).dropWhile isB64Char = ['='] ∨
    (base64Encode bytes).dropWhile isB64Char = ['=', '=']
  | [], _ => by simp [base64Encode]
  | [b1], h => by
    have hb1 : b1 < 256 := h b1 (by simp)
    have c1 := isB64Char_encChar (b1 / 4) (by omega)
    have c2 := isB64Char_encChar (b1 % 4 * 16) (by omega)
    right; right
    simp [base64Encode, List.dropWhile, c1, c2, isB64Char_pad]
  | [b1, b2], h => by
    have hb1 : b1 < 256 := h b1 (by simp)
    have hb2 : b2 < 256 := h b2 (by simp)
    have c1 := isB64Char_encChar (b1 / 4) (by omega)
    have c2 := isB64Char_encChar (b1 % 4 * 16 + b2 / 16) (by omega)
    have c3 := isB64Char_encChar (b2 % 16 * 4) (by omega)
    right; left
    simp [base64Encode, List.dropWhile, c1, c2, c3, isB64Char_pad]
  | b1 :: b2 :: b3 :: rest, h => by
    have hb1 : b1 < 256 := h b1 (by simp)
    have hb2 : b2 < 256 := h b2 (by simp)
    have hb3 : b3 < 256 := h b3 (by simp)
    have c1 := isB64Char_encChar (b1 / 4) (by omega)
    have c2 := isB64Char_encChar (b1 % 4 * 16 + b2 / 16) (by omega)
    have c3 := isB64Char_encChar (b2 % 16 * 4 + b3 / 64) (by omega)
    have c4 := isB64Char_encChar (b3 % 64) (by omega)
    have ih := dropWhile_isB64_base64Encode rest (fun b hb => h b (by simp [hb]))
    simpa [base64Encode, List.dropWhile, c1, c2, c3, c4] using ih

theorem isValidBase64_base64Encode (bytes : Bytes) (hne : bytes ≠ [])
    (h : ∀ b ∈ bytes, b < 256) : CryptoManager.isValidBase64 (base64Encode bytes) = true := by
  have h1 := base64Encode_ne_nil bytes hne
  have h2 := dropWhile_isB64_base64Encode bytes h
  have h3 := length_base64Encode_mod4 bytes
  simp only [CryptoManager.isValidBase64, base64RegexTest, if_neg h1, h3]
  rcases h2 with h2 | h2 | h2 <;> simp [h2]

/-- Join with a single-character separator: left inverse of `splitOnChar`,
used to state what a successful split says about the original string. -/
def joinSep (sep : Char) : List Str → Str
  | [] => []
  | [p] => p
  | p :: rest => p ++ sep :: joinSep sep rest

theorem splitOnCharAux_cons_self (sep : Char) (rest : Str) (acc : List Char) :
    splitOnCharAux sep (sep :: rest) acc = acc.reverse :: splitOnCharAux sep rest [] := by
  simp [splitOnCharAux]

theorem splitOnCharAux_cons_ne (sep c : Char) (hc : ¬ c = sep) (rest : Str)
    (acc : List Char) :
    splitOnCharAux sep (c :: rest) acc = splitOnCharAux sep rest (c :: acc) := by
  simp [splitOnCharAux, hc]

theorem splitOnCharAux_append_noSep (sep : Char) :
    ∀ (a : Str), sep ∉ a → ∀ (t : Str) (acc : List Char),
      splitOnCharAux sep (a ++ t) acc = splitOnCharAux sep t (a.reverse ++ acc)
  | [], _, t, acc => by simp
  | c :: a', h, t, acc => by
    have hc : ¬ (c = sep) := fun e => h (e ▸ List.mem_cons_self c a')
    rw [List.cons_append, splitOnCharAux_cons_ne sep c hc,
      splitOnCharAux_append_noSep sep a' (fun hm => h (List.mem_cons_of_mem _ hm)) t (c :: acc)]
    simp

theorem splitOnChar_append_sep (sep : Char) (a rest : Str) (ha : sep ∉ a) :
    splitOnChar sep (a ++ sep :: rest) = a :: splitOnChar sep rest := by
  unfold splitOnChar
  rw [splitOnCharAux_append_noSep sep a ha (sep :: rest) []]
  simp [splitOnCharAux]

theorem splitOnChar_noSep (sep : Char) (a : Str) (ha : sep ∉ a) :
    splitOnChar sep a = [a] := by
  unfold splitOnChar
  have h2 := splitOnCharAux_append_noSep sep a ha [] []
  rw [List.append_nil] at h2
  rw [h2]
  simp [splitOnCharAux]

theorem splitOnCharAux_ne_nil (sep : Char) :
    ∀ (l : Str) (acc : List Char), splitOnCharAux sep l acc ≠ []
  | [], acc => by simp [splitOnCharAux]
  | c :: rest, acc => by
    simp only [splitOnCharAux]
    by_cases hc : c = sep
    · simp [hc]
    · simp only [if_neg hc]
      exact splitOnCharAux_ne_nil sep rest (c :: acc)

theorem joinSep_cons_cons (sep : Char) (p q : Str) (rest : List Str) :
    joinSep sep (p :: q :: rest) = p ++ sep :: joinSep sep (q :: rest) := rfl

theorem joinSep_splitOnCharAux (sep : Char) :
    ∀ (l : Str) (acc : List Char),
      joinSep sep (splitOnCharAux sep l acc) = acc.reverse ++ l
  | [], acc => by simp [splitOnCharAux, joinSep]
  | c :: rest, acc => by
    by_cases hc : c = sep
    · subst hc
      obtain ⟨q, qs, hq⟩ : ∃ q qs, splitOnCharAux c rest [] = q :: qs := by
        cases h : splitOnCharAux c rest [] with
        | nil => exact absurd h (splitOnCharAux_ne_nil c rest [])
        | cons q qs => exact ⟨q, qs, rfl⟩
      rw [splitOnCharAux_cons_self, hq, joinSep_cons_cons, ← hq,
        joinSep_splitOnCharAux c rest []]
      simp
    · rw [splitOnCharAux_cons_ne sep c hc, joinSep_splitOnCharAux sep rest (c :: acc)]
      simp

theorem joinSep_splitOnChar (sep : Char) (l : Str) :
    joinSep sep (splitOnChar sep l) = l := by
  unfold splitOnChar
  rw [joinSep_splitOnCharAux sep l []]
  simp

theorem sep_not_mem_of_mem_splitOnCharAux (sep : Char) :
    ∀ (l : Str) (acc : List Char), sep ∉ acc →
      ∀ p ∈ splitOnCharAux sep l acc, sep ∉ p
  | [], acc, hacc, p, hp => by
    simp only [splitOnCharAux, List.mem_singleton] at hp
    subst hp
    simpa using hacc
  | c :: rest, acc, hacc, p, hp => by
    by_cases hc : c = sep
    · subst hc
      rw [splitOnCharAux_cons_self] at hp
      rcases List.mem_cons.mp hp with rfl | hp
      · simpa using hacc
      · exact sep_not_mem_of_mem_splitOnCharAux c rest [] (by simp) p hp
    · rw [splitOnCharAux_cons_ne sep c hc] at hp
      refine sep_not_mem_of_mem_splitOnCharAux sep rest (c :: acc) ?_ p hp
      simp only [List.mem_cons, not_or]
      exact ⟨fun e => hc e.symm, hacc⟩

theorem sep_not_mem_of_mem_splitOnChar (sep : Char) (l : Str) :
    ∀ p ∈ splitOnChar sep l, sep ∉ p :=
  sep_not_mem_of_mem_splitOnCharAux sep l [] (by simp)

theorem char_toNat_inj {a b : Char} (h : a.toNat = b.toNat) : a = b := by
  have h2 := congrArg Char.ofNat h
  rwa [Char.ofNat_toNat, Char.ofNat_toNat] at h2

theorem foldl_or_xor_self : ∀ (l : Str) (acc : ℕ),
    ((l.zip l).foldl (fun r p => r ||| (p.1.toNat ^^^ p.2.toNat)) acc) = acc
  | [], acc => rfl
  | c :: l, acc => by
    simp only [List.zip_cons_cons, List.foldl_cons, Nat.xor_self, Nat.or_zero]
    exact foldl_or_xor_self l acc

theorem foldl_or_xor_eq_zero : ∀ (l : List (Char × Char)) (acc : ℕ),
    (l.foldl (fun r p => r ||| (p.1.toNat ^^^ p.2.toNat)) acc = 0) ↔
      (acc = 0 ∧ ∀ p ∈ l, p.1 = p.2)
  | [], acc => by simp
  | q :: l, acc => by
    rw [List.foldl_cons, foldl_or_xor_eq_zero l, nat_or_eq_zero, Nat.xor_eq_zero]
    constructor
    · rintro ⟨⟨h0, hq⟩, hl⟩
      exact ⟨h0, by
        intro p hp
        rcases List.mem_cons.mp hp with rfl | hp
        · exact char_toNat_inj hq
        · exact hl p hp⟩
    · rintro ⟨h0, hall⟩
      exact ⟨⟨h0, congrArg Char.toNat (hall q (List.mem_cons_self q l))⟩,
        fun p hp => hall p (List.mem_cons_of_mem _ hp)⟩

theorem eq_of_zip_pointwise : ∀ (a b : Str), a.length = b.length →
    (∀ p ∈ a.zip b, p.1 = p.2) → a = b
  | [], [], _, _ => rfl
  | [], _ :: _, h, _ => by simp at h
  | _ :: _, [], h, _ => by simp at h
  | x :: a, y :: b, h, hp => by
    have hxy : x = y := hp (x, y) (by simp)
    have htl : a = b := by
      refine eq_of_zip_pointwise a b (by simpa using h) ?_
      intro p hmem
      exact hp p (by simp [hmem])
    rw [hxy, htl]

theorem constantTimeCompare_eq_iff (a b : Str) :
    CryptoManager.constantTimeCompare a b = true ↔ a = b := by
  unfold CryptoManager.constantTimeCompare
  by_cases hlen : a.length ≠ b.length
  · rw [if_pos hlen]
    constructor
    · intro h
      exact absurd h (by simp)
    · rintro rfl
      exact absurd rfl hlen
  · rw [if_neg hlen]
    push_neg at hlen
    rw [beq_iff_eq, foldl_or_xor_eq_zero]
    constructor
    · rintro ⟨-, hpt⟩
      exact eq_of_zip_pointwise a b hlen hpt
    · rintro rfl
      refine ⟨rfl, ?_⟩
      have hself := foldl_or_xor_eq_zero (a.zip a) 0
      rw [foldl_or_xor_self a 0] at hself
      exact (hself.mp rfl).2

theorem lineMatches_canonical (key value : Str)
    (hkey : ∀ c, key.head? = some c → isJsWhitespace c = false) :
    EnvironmentFileParser.lineMatches key (key ++ '=' :: value) = true := by
  have hpad : isJsWhitespace '=' = false := by decide
  have h1 : ∃ w, jsTrimRight (key ++ '=' :: value) = (key ++ ['=']) ++ w := by
    unfold jsTrimRight
    have hx : (key ++ '=' :: value).reverse = value.reverse ++ ('=' :: key.reverse) := by
      simp
    rw [hx, List.dropWhile_append]
    by_cases he : (value.reverse.dropWhile isJsWhitespace).isEmpty
    · rw [if_pos he]
      refine ⟨[], ?_⟩
      simp [List.dropWhile_cons, hpad]
    · rw [if_neg he]
      refine ⟨(value.reverse.dropWhile isJsWhitespace).reverse, ?_⟩
      simp
  obtain ⟨w, hw⟩ := h1
  have h2 : ∃ w, jsTrim (key ++ '=' :: value) = (key ++ ['=']) ++ w := by
    unfold jsTrim
    rw [hw]
    cases key with
    | nil =>
      refine ⟨w, ?_⟩
      simp [List.dropWhile_cons, hpad]
    | cons c k' =>
      have hc : isJsWhitespace c = false := hkey c rfl
      refine ⟨w, ?_⟩
      simp [List.dropWhile_cons, hc]
  obtain ⟨w2, hw2⟩ := h2
  unfold EnvironmentFileParser.lineMatches
  rw [hw2]
  exact List.isPrefixOf_iff_prefix.mpr ⟨w2, rfl⟩

/-! ### Claim theorems -/

/-- C8: for every requested length, random-byte generation (the generic
validation and the salt, IV and secret-key convenience forms) succeeds on
validation exactly when the length is an integer in the closed range
`[8, 1024]` — equivalently, it throws the invalid-length error iff the
length is not an integer, is below 8, or is above 1024. -/
theorem claim_C8_random_length_validation :
    ∀ (length : ℚ) (randomBytes : ℕ → Bytes),
      ((SecureKeyGenerator.validateLength length = .ok ()) ↔
        (length.den = 1 ∧ 8 ≤ length ∧ length ≤ 1024)) ∧
      ((∃ s, SecureKeyGenerator.generateBase64Salt randomBytes length = .ok s) ↔
        (length.den = 1 ∧ 8 ≤ length ∧ length ≤ 1024)) ∧
      ((∃ s, SecureKeyGenerator.generateBase64IV randomBytes length = .ok s) ↔
        (length.den = 1 ∧ 8 ≤ length ∧ length ≤ 1024)) ∧
      ((∃ s, SecureKeyGenerator.generateWebCryptoIV randomBytes length = .ok s) ↔
        (length.den = 1 ∧ 8 ≤ length ∧ length ≤ 1024)) ∧
      ((∃ s, SecureKeyGenerator.generateBase64SecretKey randomBytes length = .ok s) ↔
        (length.den = 1 ∧ 8 ≤ length ∧ length ≤ 1024)) := by
  intro length randomBytes
  have hv : (SecureKeyGenerator.validateLength length = .ok ()) ↔
      (length.den = 1 ∧ 8 ≤ length ∧ length ≤ 1024) := by
    unfold SecureKeyGenerator.validateLength
    by_cases h1 : length.den = 1
    · by_cases h2 : length < 8
      · rw [if_neg (not_not_intro h1), if_pos h2]
        constructor
        · intro h
          exact absurd h (by simp)
        · rintro ⟨-, h8, -⟩
          exact absurd h2 (not_lt.mpr h8)
      · by_cases h3 : length > 1024
        · rw [if_neg (not_not_intro h1), if_neg h2, if_pos h3]
          constructor
          · intro h
            exact absurd h (by simp)
          · rintro ⟨-, -, hle⟩
            exact absurd h3 (not_lt.mpr hle)
        · rw [if_neg (not_not_intro h1), if_neg h2, if_neg h3]
          constructor
          · intro _
            exact ⟨h1, not_lt.mp h2, not_lt.mp h3⟩
          · intro _
            rfl
    · rw [if_pos h1]
      constructor
      · intro h
        exact absurd h (by simp)
      · rintro ⟨hd, -, -⟩
        exact absurd hd h1
  refine ⟨hv, ?_, ?_, ?_, ?_⟩ <;>
    · rw [← hv]
      cases h : SecureKeyGenerator.validateLength length with
      | ok u =>
        cases u
        simp [SecureKeyGenerator.generateBase64Salt, SecureKeyGenerator.generateBase64IV,
          SecureKeyGenerator.generateWebCryptoIV, SecureKeyGenerator.generateBase64SecretKey, h]
      | error e =>
        simp [SecureKeyGenerator.generateBase64Salt, SecureKeyGenerator.generateBase64IV,
          SecureKeyGenerator.generateWebCryptoIV, SecureKeyGenerator.generateBase64SecretKey, h]

/-- C3 (amended): key derivation rejects with the invalid-salt error
exactly the salts that are empty or not valid base64; it succeeds (given
the underlying hash succeeds) for every valid base64 salt, with no check
that the decoded salt is 32 bytes long. -/
theorem claim_C3_salt_validation_amended :
    ∀ (P : CryptoPrimitives) (secretKey salt : Str),
      ((CryptoManager.deriveKeysWithArgon2 P secretKey salt = .error .invalidSalt) ↔
        (salt = [] ∨ CryptoManager.isValidBase64 salt = false)) ∧
      ((∃ ks, CryptoManager.deriveKeysWithArgon2 P secretKey salt = .ok ks) ↔
        (salt ≠ [] ∧ CryptoManager.isValidBase64 salt = true ∧
          ∃ buf, P.argon2Raw secretKey (base64Decode salt) = .ok buf)) := by
  intro P secretKey salt
  unfold CryptoManager.deriveKeysWithArgon2
  by_cases h1 : salt = []
  · rw [if_pos h1]
    refine ⟨by simp [h1], ?_⟩
    constructor
    · rintro ⟨ks, hks⟩
      exact absurd hks (by simp)
    · rintro ⟨hne, -⟩
      exact absurd h1 hne
  · rw [if_neg h1]
    by_cases h2 : CryptoManager.isValidBase64 salt
    · rw [if_neg (not_not_intro h2)]
      cases ha : P.argon2Raw secretKey (base64Decode salt) with
      | ok buf =>
        refine ⟨by simp [h1, h2, ha], ?_⟩
        simp [h1, h2, ha]
      | error e =>
        refine ⟨by simp [h1, h2, ha], ?_⟩
        simp [h1, h2, ha]
    · rw [if_pos (by simpa using h2)]
      refine ⟨by simp [h1, by simpa using h2], ?_⟩
      constructor
      · rintro ⟨ks, hks⟩
        exact absurd hks (by simp)
      · rintro ⟨-, hv, -⟩
        exact absurd hv (by simpa using h2)

/-- C3 counterexample: the salt `"AAAA"` is valid base64 but decodes to 3
bytes, not 32; the claim demands an invalid-salt failure, yet key
derivation succeeds on it (with primitives whose hash succeeds). -/
theorem claim_C3_counterexample :
    (base64Decode ("AAAA".toList)).length = 3 ∧
    (base64Decode ("AAAA".toList)).length ≠ 32 ∧
    CryptoManager.deriveKeysWithArgon2 toyPrimitives ("0123456789abcdef".toList)
      ("AAAA".toList) = .ok (List.replicate 32 0, List.replicate 32 0) := by
  refine ⟨by decide, by decide, ?_⟩
  rfl

/-- C10: the MAC-comparison helper decides string equality exactly —
`constantTimeCompare a b` is true iff `a = b` — and `verifyHMAC` accepts
exactly when the recomputed base64 HMAC equals the received one (rejecting
precisely when they differ). -/
theorem claim_C10_constant_time_compare_exact :
    ∀ (a b : Str) (P : CryptoPrimitives) (salt iv cipherText receivedHmac : Str)
      (hmacKey : Bytes),
      (CryptoManager.constantTimeCompare a b = true ↔ a = b) ∧
      (CryptoManager.verifyHMAC P salt iv cipherText receivedHmac hmacKey = .ok () ↔
        CryptoManager.computeHMAC P hmacKey
          (CryptoManager.prepareHMACData salt iv cipherText) = receivedHmac) := by
  intro a b P salt iv cipherText receivedHmac hmacKey
  refine ⟨constantTimeCompare_eq_iff a b, ?_⟩
  unfold CryptoManager.verifyHMAC
  by_cases h : CryptoManager.constantTimeCompare
      (CryptoManager.computeHMAC P hmacKey
        (CryptoManager.prepareHMACData salt iv cipherText)) receivedHmac = true
  · rw [if_pos h]
    exact ⟨fun _ => (constantTimeCompare_eq_iff _ _).mp h, fun _ => rfl⟩
  · rw [if_neg h]
    constructor
    · intro hcon
      exact absurd hcon (by simp)
    · intro heq
      exact absurd ((constantTimeCompare_eq_iff _ _).mpr heq) h

/-- C7: the probe `isEncrypted` is total (a Lean function, hence it never
throws) and accepts exactly the strings of the shape
`"ENC2:" ++ s ++ ":" ++ i ++ ":" ++ c ++ ":" ++ m` whose four colon-free
segments are all non-empty and valid base64; in particular it returns
false for plaintext (no prefix), for a prefixed remainder that does not
split into exactly 4 parts, and for empty or non-base64 segments. -/
theorem claim_C7_isEncrypted_rejection :
    ∀ (v : Str), CryptoManager.isEncrypted v = true ↔
      ∃ s i c m, v = encHeader ++ (s ++ ':' :: i ++ ':' :: c ++ ':' :: m) ∧
        ∀ p ∈ [s, i, c, m],
          ':' ∉ p ∧ p ≠ [] ∧ CryptoManager.isValidBase64 p = true := by
  intro v
  constructor
  · intro h
    unfold CryptoManager.isEncrypted at h
    by_cases hnil : v = []
    · rw [if_pos hnil] at h
      exact absurd h (by simp)
    · rw [if_neg hnil] at h
      by_cases hpre : encHeader.isPrefixOf v
      · rw [if_neg (not_not_intro hpre)] at h
        obtain ⟨rest, hrest⟩ := List.isPrefixOf_iff_prefix.mp hpre
        subst hrest
        rw [List.drop_left] at h
        simp only [Bool.and_eq_true, beq_iff_eq, List.all_eq_true,
          Bool.not_eq_true', beq_eq_false_iff_ne] at h
        obtain ⟨hlen, hall⟩ := h
        rcases hp : splitOnChar ':' rest with _ | ⟨s, _ | ⟨i, _ | ⟨c, _ | ⟨m, _ | _⟩⟩⟩⟩ <;>
          rw [hp] at hlen <;> simp at hlen
        have hjoin := joinSep_splitOnChar ':' rest
        rw [hp] at hjoin
        have hfree := sep_not_mem_of_mem_splitOnChar ':' rest
        rw [hp] at hfree
        refine ⟨s, i, c, m, ?_, ?_⟩
        · rw [← hjoin]
          simp [joinSep_cons_cons, joinSep, List.cons_append, List.append_assoc]
        · intro p hmem
          have h1 := hfree p hmem
          have h2 := hall p (by rw [hp]; exact hmem)
          exact ⟨h1, h2.1, h2.2⟩
      · rw [if_pos hpre] at h
        exact absurd h (by simp)
  · rintro ⟨s, i, c, m, rfl, hall⟩
    have hs := hall s (by simp)
    have hi := hall i (by simp)
    have hc := hall c (by simp)
    have hm := hall m (by simp)
    unfold CryptoManager.isEncrypted
    rw [if_neg (by simp [encHeader])]
    rw [if_neg (not_not_intro (List.isPrefixOf_iff_prefix.mpr ⟨_, rfl⟩))]
    rw [List.drop_left]
    have hshape : s ++ ':' :: i ++ ':' :: c ++ ':' :: m =
        s ++ ':' :: (i ++ ':' :: (c ++ ':' :: m)) := by
      simp [List.cons_append, List.append_assoc]
    have hsplit : splitOnChar ':' (s ++ ':' :: (i ++ ':' :: (c ++ ':' :: m))) =
        [s, i, c, m] := by
      rw [splitOnChar_append_sep ':' s _ hs.1, splitOnChar_append_sep ':' i _ hi.1,
        splitOnChar_append_sep ':' c _ hc.1, splitOnChar_noSep ':' m hm.1]
    dsimp only
    rw [hshape, hsplit]
    simp only [Bool.and_eq_true, beq_iff_eq, List.all_eq_true, Bool.not_eq_true',
      beq_eq_false_iff_ne]
    refine ⟨by simp, ?_⟩
    intro p hmem
    have hp := hall p hmem
    exact ⟨hp.2.1, hp.2.2⟩

theorem updateLines_eq_map (lines : List Str) (key value : Str)
    (hany : lines.any (fun line => EnvironmentFileParser.lineMatches key line) = true) :
    EnvironmentFileParser.updateEnvironmentFileLines lines key value =
      lines.map (fun line =>
        if EnvironmentFileParser.lineMatches key line then key ++ '=' :: value else line) := by
  unfold EnvironmentFileParser.updateEnvironmentFileLines
  rw [if_pos hany]

theorem updateLines_eq_append (lines : List Str) (key value : Str)
    (hany : lines.any (fun line => EnvironmentFileParser.lineMatches key line) = false) :
    EnvironmentFileParser.updateEnvironmentFileLines lines key value =
      lines ++ [key ++ '=' :: value] := by
  unfold EnvironmentFileParser.updateEnvironmentFileLines
  rw [if_neg (by simp [hany])]
  have hid : lines.map (fun line =>
      if EnvironmentFileParser.lineMatches key line then key ++ '=' :: value else line) =
      lines.map (fun line => line) := by
    refine List.map_congr_left ?_
    intro a ha
    have : EnvironmentFileParser.lineMatches key a = false := by
      have h2 := List.any_eq_false.mp hany
      simpa using h2 a ha
    simp [this]
  rw [hid, List.map_id']

/-- C6 (amended): `updateLine` maps over the whole sequence, replacing
every line whose trimmed form starts with `"<key>="` by `"<key>=<value>"`
(not only the first); when no line matches, it appends the assignment as a
new final line. -/
theorem claim_C6_updateLine_replaces_every_match :
    ∀ (lines : List Str) (key value : Str),
      (∀ i (hi : i < lines.length),
        (EnvironmentFileParser.updateEnvironmentFileLines lines key value)[i]? =
          some (if EnvironmentFileParser.lineMatches key lines[i] then key ++ '=' :: value
            else lines[i])) ∧
      (lines.any (fun line => EnvironmentFileParser.lineMatches key line) = true →
        (EnvironmentFileParser.updateEnvironmentFileLines lines key value).length =
          lines.length) ∧
      (lines.any (fun line => EnvironmentFileParser.lineMatches key line) = false →
        EnvironmentFileParser.updateEnvironmentFileLines lines key value =
          lines ++ [key ++ '=' :: value]) := by
  intro lines key value
  refine ⟨?_, ?_, updateLines_eq_append lines key value⟩
  · intro i hi
    by_cases hany : lines.any (fun line => EnvironmentFileParser.lineMatches key line) = true
    · rw [updateLines_eq_map lines key value hany, List.getElem?_map,
        List.getElem?_eq_getElem hi]
      rfl
    · rw [updateLines_eq_append lines key value (by simpa using hany)]
      rw [List.getElem?_append_left hi, List.getElem?_eq_getElem hi]
      have : EnvironmentFileParser.lineMatches key lines[i] = false := by
        have h2 := List.any_eq_false.mp (by simpa using hany)
        simpa using h2 lines[i] (List.getElem_mem hi)
      simp [this]
  · intro hany
    rw [updateLines_eq_map lines key value hany, List.length_map]

/-- C6 witness: on `["B=2"]` with key `"A"`, no line matches, so the
assignment is appended. -/
theorem claim_C6_witness :
    EnvironmentFileParser.updateEnvironmentFileLines ["B=2".toList] ("A".toList) ("x".toList) =
      ["B=2".toList] ++ [("A".toList) ++ '=' :: ("x".toList)] :=
  (claim_C6_updateLine_replaces_every_match ["B=2".toList] ("A".toList) ("x".toList)).2.2
    (by decide)

/-- C6 counterexample: with two lines both starting `"A="`, the claim says
only the first is replaced, but the code replaces both. -/
theorem claim_C6_counterexample :
    EnvironmentFileParser.updateEnvironmentFileLines
      ["A=1".toList, "A=2".toList] ("A".toList) ("x".toList) =
      ["A=x".toList, "A=x".toList] ∧
    ["A=x".toList, "A=x".toList] ≠ ["A=x".toList, "A=2".toList] := by
  constructor
  · decide
  · decide

/-- C9 (amended): `updateLine` is idempotent for every key that does not
begin with a whitespace character (in particular for every key the parser
can produce, since parsed keys are trimmed); a key starting with
whitespace can never match any trimmed line, so its appended assignment
line is appended again on the second run. -/
theorem claim_C9_updateLine_idempotent :
    ∀ (lines : List Str) (key value : Str),
      (∀ c, key.head? = some c → isJsWhitespace c = false) →
      EnvironmentFileParser.updateEnvironmentFileLines
        (EnvironmentFileParser.updateEnvironmentFileLines lines key value) key value =
      EnvironmentFileParser.updateEnvironmentFileLines lines key value := by
  intro lines key value hkey
  have hm : EnvironmentFileParser.lineMatches key (key ++ '=' :: value) = true :=
    lineMatches_canonical key value hkey
  by_cases hany : lines.any (fun line => EnvironmentFileParser.lineMatches key line) = true
  · rw [updateLines_eq_map lines key value hany]
    have hany2 : (lines.map (fun line =>
        if EnvironmentFileParser.lineMatches key line then key ++ '=' :: value else line)).any
        (fun line => EnvironmentFileParser.lineMatches key line) = true := by
      obtain ⟨l, hl, hml⟩ := List.any_eq_true.mp hany
      refine List.any_eq_true.mpr ⟨key ++ '=' :: value, ?_, hm⟩
      refine List.mem_map.mpr ⟨l, hl, ?_⟩
      have hml' : EnvironmentFileParser.lineMatches key l = true := hml
      simp [hml']
    rw [updateLines_eq_map _ key value hany2, List.map_map]
    refine List.map_congr_left ?_
    intro a _
    by_cases hma : EnvironmentFileParser.lineMatches key a = true
    · simp [Function.comp, hma, hm]
    · simp [Function.comp, hma]
  · have hany' : lines.any (fun line => EnvironmentFileParser.lineMatches key line) = false := by
      simpa using hany
    rw [updateLines_eq_append lines key value hany']
    have hany2 : (lines ++ [key ++ '=' :: value]).any
        (fun line => EnvironmentFileParser.lineMatches key line) = true :=
      List.any_eq_true.mpr ⟨key ++ '=' :: value, by simp, hm⟩
    rw [updateLines_eq_map _ key value hany2, List.map_append]
    have hid : lines.map (fun line =>
        if EnvironmentFileParser.lineMatches key line then key ++ '=' :: value else line) =
        lines.map (fun line => line) := by
      refine List.map_congr_left ?_
      intro a ha
      have h2 := List.any_eq_false.mp hany'
      have : EnvironmentFileParser.lineMatches key a = false := by simpa using h2 a ha
      simp [this]
    rw [hid, List.map_id']
    simp [hm]

/-- C9 witness: idempotence at the concrete file `["A=1"]`, key `"A"`,
value `"x"`. -/
theorem claim_C9_witness :
    EnvironmentFileParser.updateEnvironmentFileLines
      (EnvironmentFileParser.updateEnvironmentFileLines ["A=1".toList] ("A".toList) ("x".toList))
      ("A".toList) ("x".toList) =
    EnvironmentFileParser.updateEnvironmentFileLines ["A=1".toList] ("A".toList) ("x".toList) :=
  claim_C9_updateLine_idempotent ["A=1".toList] ("A".toList) ("x".toList) (by decide)

/-- C9 counterexample: for the key `" A"` (leading space) on an empty line
sequence, the first run appends `" A=v"`, whose trimmed form does not start
with `" A="`, so the second run appends it again — the claim's unqualified
idempotence is false. -/
theorem claim_C9_counterexample :
    EnvironmentFileParser.updateEnvironmentFileLines
      (EnvironmentFileParser.updateEnvironmentFileLines [] (" A".toList) ("v".toList))
      (" A".toList) ("v".toList) ≠
    EnvironmentFileParser.updateEnvironmentFileLines [] (" A".toList) ("v".toList) := by
  decide

theorem find?_of_first_index {α : Type} (p : α → Bool) :
    ∀ (l : List α) (i : ℕ) (hi : i < l.length), p l[i] = true →
      (∀ j, j < i → ∀ (hj : j < l.length), p l[j] = false) →
      l.find? p = some l[i]
  | [], i, hi, _, _ => absurd hi (by simp)
  | x :: xs, 0, hi, hp, _ => by
    simp only [List.getElem_cons_zero] at hp ⊢
    exact List.find?_cons_of_pos xs hp
  | x :: xs, i + 1, hi, hp, hprev => by
    have hx : p x = false := by
      have h0 := hprev 0 (Nat.succ_pos i) (by simp)
      simpa using h0
    rw [List.find?_cons_of_neg xs (by simp [hx])]
    have hi2 : i < xs.length := by simpa using hi
    have hp2 : p xs[i] = true := by simpa using hp
    have hprev2 : ∀ j, j < i → ∀ (hj : j < xs.length), p xs[j] = false := by
      intro j hj hjl
      have h2 := hprev (j + 1) (by omega) (by simpa using Nat.succ_lt_succ hjl)
      simpa using h2
    have h3 := find?_of_first_index p xs i hi2 hp2 hprev2
    simpa using h3

theorem resolve_single_of_found (all : List (Str × Str)) (name : Str) (q : Str × Str)
    (h : EnvironmentFileParser.findEnvironmentVariableByKey all name = [q]) :
    EncryptionManager.resolveVariablesToEncrypt all (some [name]) = [q] := by
  obtain ⟨k, v⟩ := q
  simp [EncryptionManager.resolveVariablesToEncrypt, h, EnvironmentFileParser.recordSet]

/-- C5 (amended): explicit-name resolution tries an exact key match first —
the first entry whose KEY equals the requested name wins outright — but
when the requested name matches no key it falls back to the FIRST variable
whose VALUE equals the requested name; only a name matching neither any
key nor any value is warned about and contributes nothing. -/
theorem claim_C5_resolution_key_then_value :
    ∀ (all : List (Str × Str)) (name : Str),
      (∀ i (hi : i < all.length), all[i].1 = name →
        (∀ j, j < i → ∀ (hj : j < all.length), all[j].1 ≠ name) →
        EncryptionManager.resolveVariablesToEncrypt all (some [name]) =
          [(name, all[i].2)]) ∧
      ((∀ p ∈ all, p.1 ≠ name) →
        ∀ i (hi : i < all.length), all[i].2 = name →
        (∀ j, j < i → ∀ (hj : j < all.length), all[j].2 ≠ name) →
        EncryptionManager.resolveVariablesToEncrypt all (some [name]) = [all[i]]) ∧
      ((∀ p ∈ all, p.1 ≠ name ∧ p.2 ≠ name) →
        EncryptionManager.resolveVariablesToEncrypt all (some [name]) = []) := by
  intro all name
  refine ⟨?_, ?_, ?_⟩
  · intro i hi hkey hfirst
    have hfind : all.find? (fun q => q.1 == name) = some all[i] := by
      refine find?_of_first_index _ all i hi (by simp [hkey]) ?_
      intro j hj hjl
      simp only [beq_eq_false_iff_ne, ne_eq]
      exact hfirst j hj hjl
    have hbk : EnvironmentFileParser.findEnvironmentVariableByKey all name =
        [(name, all[i].2)] := by
      unfold EnvironmentFileParser.findEnvironmentVariableByKey
      rw [hfind]
    exact resolve_single_of_found all name (name, all[i].2) hbk
  · intro hkeys i hi hval hfirst
    have hk : all.find? (fun q => q.1 == name) = none := by
      rw [List.find?_eq_none]
      intro q hq
      simp only [beq_eq_false_iff_ne, Bool.not_eq_true, ne_eq]
      exact hkeys q hq
    have hfind : all.find? (fun q => q.2 == name) = some all[i] := by
      refine find?_of_first_index _ all i hi (by simp [hval]) ?_
      intro j hj hjl
      simp only [beq_eq_false_iff_ne, ne_eq]
      exact hfirst j hj hjl
    have hbk : EnvironmentFileParser.findEnvironmentVariableByKey all name = [all[i]] := by
      unfold EnvironmentFileParser.findEnvironmentVariableByKey
      rw [hk, hfind]
    exact resolve_single_of_found all name all[i] hbk
  · intro hno
    have hk : all.find? (fun q => q.1 == name) = none := by
      rw [List.find?_eq_none]
      intro q hq
      simp only [beq_eq_false_iff_ne, Bool.not_eq_true, ne_eq]
      exact (hno q hq).1
    have hv : all.find? (fun q => q.2 == name) = none := by
      rw [List.find?_eq_none]
      intro q hq
      simp only [beq_eq_false_iff_ne, Bool.not_eq_true, ne_eq]
      exact (hno q hq).2
    simp [EncryptionManager.resolveVariablesToEncrypt,
      EnvironmentFileParser.findEnvironmentVariableByKey, hk, hv]

/-- C5 witness: in the map `{A: "B"}`, the requested name `"B"` matches no
key; the fall-back resolves it to the first (here only) entry whose value
is `"B"`. -/
theorem claim_C5_witness :
    EncryptionManager.resolveVariablesToEncrypt [(("A".toList), ("B".toList))]
      (some ["B".toList]) = [(("A".toList), ("B".toList))] := by
  have h := (claim_C5_resolution_key_then_value [(("A".toList), ("B".toList))]
    ("B".toList)).2.1 (by decide) 0 (by decide) (by decide)
    (fun j hj _ => absurd hj (Nat.not_lt_zero j))
  simpa using h

/-- C5 counterexample: the requested name `"B"` is not a key of the map
`{A: "B"}`, yet it resolves (by value) to the variable `A` instead of
being skipped, so the claim's exact-key-match-only statement is false. -/
theorem claim_C5_counterexample :
    (∀ p ∈ [(("A".toList), ("B".toList))], p.1 ≠ "B".toList) ∧
    EncryptionManager.resolveVariablesToEncrypt [(("A".toList), ("B".toList))]
      (some ["B".toList]) = [(("A".toList), ("B".toList))] := by
  constructor
  · decide
  · decide

/-- C2 (amended): the orchestrator's skip/encrypt classification uses the
prefix-only probe `isAlreadyEncrypted` (`startsWith "ENC2:"`), not the
full structural `isEncrypted`: with rotation not requested, a non-empty
value whose trimmed form starts with the prefix is skipped (no encrypt
call, no line change, count 0), and a value without the prefix is passed
to the encrypt step as plaintext. -/
theorem claim_C2_classification_by_marker :
    ∀ (encryptValue decryptValue : Str → Except CryptoErr Str) (lines : List Str)
      (key value : Str),
      value ≠ [] →
      (EncryptionManager.isAlreadyEncrypted (jsTrim value) = true →
        EncryptionManager.encryptVariableValuesInFileLines encryptValue decryptValue false
          lines [(key, value)] = .ok (lines, 0)) ∧
      (EncryptionManager.isAlreadyEncrypted (jsTrim value) = false →
        ∀ ev, encryptValue (jsTrim value) = .ok ev →
          EncryptionManager.encryptVariableValuesInFileLines encryptValue decryptValue false
            lines [(key, value)] =
            .ok (EnvironmentFileParser.updateEnvironmentFileLines lines key ev, 1)) := by
  intro encryptValue decryptValue lines key value hval
  constructor
  · intro henc
    simp [EncryptionManager.encryptVariableValuesInFileLines, EncryptionManager.encryptLoopStep,
      List.foldlM, hval, henc]
  · intro henc ev hev
    simp [EncryptionManager.encryptVariableValuesInFileLines, EncryptionManager.encryptLoopStep,
      List.foldlM, hval, henc, hev, Bind.bind, Except.bind, Pure.pure, Except.pure]

/-- C2 witness: the non-empty value `"ENC2:xx"` carries the prefix, so with
rotation not requested the single-variable run is a no-op with count 0. -/
theorem claim_C2_witness :
    EncryptionManager.encryptVariableValuesInFileLines (fun s => .ok s)
      (fun _ => .error CryptoErr.decryptionFailed) false ["K=ENC2:xx".toList]
      [("K".toList, "ENC2:xx".toList)] = .ok (["K=ENC2:xx".toList], 0) :=
  (claim_C2_classification_by_marker (fun s => .ok s)
    (fun _ => .error CryptoErr.decryptionFailed) ["K=ENC2:xx".toList]
    ("K".toList) ("ENC2:xx".toList) (by decide)).1 (by decide)

/-- C2 counterexample: `"ENC2:xx"` fails the structural `isEncrypted`
check, so per the claim it should be passed to the encrypt step — but even
with an encrypt step that always throws, the run succeeds as a skip
(count 0, lines unchanged): the orchestrator never reached encrypt. -/
theorem claim_C2_counterexample :
    CryptoManager.isEncrypted ("ENC2:xx".toList) = false ∧
    EncryptionManager.encryptVariableValuesInFileLines
      (fun _ => .error CryptoErr.cipherFailure)
      (fun _ => .error CryptoErr.decryptionFailed) false ["K=ENC2:xx".toList]
      [("K".toList, "ENC2:xx".toList)] = .ok (["K=ENC2:xx".toList], 0) := by
  constructor
  · decide
  · rfl

theorem findByKey_nil (name : Str) :
    EnvironmentFileParser.findEnvironmentVariableByKey [] name = [] := rfl

theorem resolve_nil (o : Option (List Str)) :
    EncryptionManager.resolveVariablesToEncrypt [] o = [] := by
  cases o with
  | none => rfl
  | some names =>
    cases names with
    | nil => rfl
    | cons n ns =>
      show (n :: ns).foldl _ [] = []
      have hgen : ∀ (l : List Str), l.foldl
          (fun acc lookupValue =>
            match EnvironmentFileParser.findEnvironmentVariableByKey [] lookupValue with
            | [] => acc
            | (key, value) :: _ => EnvironmentFileParser.recordSet acc key value) [] = [] := by
        intro l
        induction l with
        | nil => rfl
        | cons x xs ih => exact ih
      exact hgen (n :: ns)

theorem encryptLoop_nil (encryptValue decryptValue : Str → Except CryptoErr Str)
    (force : Bool) (lines : List Str) :
    EncryptionManager.encryptVariableValuesInFileLines encryptValue decryptValue force
      lines [] = .ok (lines, 0) := rfl

/-- C4: when any selected variable's encrypt/decrypt step fails, the whole
orchestration fails with that error and no write happens (the result
carries no written lines); and a write (result `some newLines`) occurs
exactly when extraction and selection are non-empty and the per-variable
loop succeeds with at least one variable newly encrypted or
re-encrypted. -/
theorem claim_C4_no_partial_writes :
    ∀ (encryptValue decryptValue : Str → Except CryptoErr Str) (lines : List Str)
      (envVariables : Option (List Str)) (force : Bool),
      (∀ e, EncryptionManager.encryptVariableValuesInFileLines encryptValue decryptValue force
          lines (EncryptionManager.resolveVariablesToEncrypt
            (EnvironmentFileParser.extractEnvironmentVariables lines) envVariables) =
          .error e →
        EncryptionManager.encryptAndUpdateEnvironmentVariables encryptValue decryptValue lines
          envVariables force = .error e) ∧
      (∀ newLines,
        EncryptionManager.encryptAndUpdateEnvironmentVariables encryptValue decryptValue lines
          envVariables force = .ok (some newLines) ↔
        (EnvironmentFileParser.extractEnvironmentVariables lines ≠ [] ∧
          EncryptionManager.resolveVariablesToEncrypt
            (EnvironmentFileParser.extractEnvironmentVariables lines) envVariables ≠ [] ∧
          ∃ cnt, EncryptionManager.encryptVariableValuesInFileLines encryptValue decryptValue
              force lines (EncryptionManager.resolveVariablesToEncrypt
                (EnvironmentFileParser.extractEnvironmentVariables lines) envVariables) =
              .ok (newLines, cnt) ∧ 0 < cnt)) := by
  intro encryptValue decryptValue lines envVariables force
  by_cases h1 : EnvironmentFileParser.extractEnvironmentVariables lines = []
  · constructor
    · intro e he
      rw [h1, resolve_nil, encryptLoop_nil] at he
      exact absurd he (by simp)
    · intro newLines
      have hrun : EncryptionManager.encryptAndUpdateEnvironmentVariables encryptValue
          decryptValue lines envVariables force = .ok none := by
        simp [EncryptionManager.encryptAndUpdateEnvironmentVariables, h1,
          Pure.pure, Except.pure]
      rw [hrun]
      constructor
      · intro hok
        exact absurd (Except.ok.inj hok) (by simp)
      · rintro ⟨hne, -, -⟩
        exact absurd h1 hne
  · by_cases h2 : EncryptionManager.resolveVariablesToEncrypt
        (EnvironmentFileParser.extractEnvironmentVariables lines) envVariables = []
    · constructor
      · intro e he
        rw [h2, encryptLoop_nil] at he
        exact absurd he (by simp)
      · intro newLines
        have hrun : EncryptionManager.encryptAndUpdateEnvironmentVariables encryptValue
            decryptValue lines envVariables force = .ok none := by
          simp [EncryptionManager.encryptAndUpdateEnvironmentVariables, h1, h2,
            Pure.pure, Except.pure]
        rw [hrun]
        constructor
        · intro hok
          exact absurd (Except.ok.inj hok) (by simp)
        · rintro ⟨-, hne, -⟩
          exact absurd h2 hne
    · cases hl : EncryptionManager.encryptVariableValuesInFileLines encryptValue decryptValue
          force lines (EncryptionManager.resolveVariablesToEncrypt
            (EnvironmentFileParser.extractEnvironmentVariables lines) envVariables) with
      | error e =>
        have hrun : EncryptionManager.encryptAndUpdateEnvironmentVariables encryptValue
            decryptValue lines envVariables force = .error e := by
          simp [EncryptionManager.encryptAndUpdateEnvironmentVariables, h1, h2, hl,
            Bind.bind, Except.bind, Pure.pure, Except.pure]
        constructor
        · intro e' he'
          have heq : e = e' := Except.error.inj he'
          rw [← heq]
          exact hrun
        · intro newLines
          rw [hrun]
          constructor
          · intro hcon
            exact absurd hcon (by simp)
          · rintro ⟨-, -, cnt, hcnt, -⟩
            exact absurd hcnt (by simp)
      | ok st =>
        obtain ⟨updatedLines, cnt⟩ := st
        have hrun : EncryptionManager.encryptAndUpdateEnvironmentVariables encryptValue
            decryptValue lines envVariables force =
            (if 0 < cnt then .ok (some updatedLines) else .ok none) := by
          simp [EncryptionManager.encryptAndUpdateEnvironmentVariables, h1, h2, hl,
            Bind.bind, Except.bind, Pure.pure, Except.pure]
        constructor
        · intro e' he'
          exact absurd he' (by simp)
        · intro newLines
          rw [hrun]
          by_cases hc : 0 < cnt
          · rw [if_pos hc]
            constructor
            · intro hok
              have hn : updatedLines = newLines := Option.some.inj (Except.ok.inj hok)
              exact ⟨h1, h2, cnt, by rw [hn], hc⟩
            · rintro ⟨-, -, cnt2, hcnt2, hc2⟩
              have hpair := Except.ok.inj hcnt2
              have hfst : updatedLines = newLines := congrArg Prod.fst hpair
              rw [hfst]
          · rw [if_neg hc]
            constructor
            · intro hok
              exact absurd (Except.ok.inj hok) (by simp)
            · rintro ⟨-, -, cnt2, hcnt2, hc2⟩
              have hpair := Except.ok.inj hcnt2
              have hsnd : cnt = cnt2 := congrArg Prod.snd hpair
              exact absurd (hsnd ▸ hc2) hc

/-- C4 witness: with an encrypt step that always throws, the run on
`["A=1"]` aborts with that error — and, the result being an error, no
written lines are produced. -/
theorem claim_C4_witness :
    EncryptionManager.encryptAndUpdateEnvironmentVariables
      (fun _ => .error CryptoErr.cipherFailure) (fun _ => .error CryptoErr.decryptionFailed)
      ["A=1".toList] none false = .error CryptoErr.cipherFailure :=
  (claim_C4_no_partial_writes (fun _ => .error CryptoErr.cipherFailure)
    (fun _ => .error CryptoErr.decryptionFailed) ["A=1".toList] none false).1
    CryptoErr.cipherFailure (by rfl)

theorem formatEncryptedPayload_shape (salt iv cipherText hmacBase64 : Str) :
    CryptoManager.formatEncryptedPayload salt iv cipherText hmacBase64 =
      encHeader ++ (salt ++ ':' :: (iv ++ ':' :: (cipherText ++ ':' :: hmacBase64))) := by
  unfold CryptoManager.formatEncryptedPayload
  simp [List.cons_append, List.append_assoc]

theorem parseEncryptedData_formatted (sB64 ivB64 ctB64 macB64 : Str)
    (h : ∀ p ∈ [sB64, ivB64, ctB64, macB64],
      ':' ∉ p ∧ p ≠ [] ∧ CryptoManager.isValidBase64 p = true) :
    CryptoManager.parseEncryptedData
      (CryptoManager.formatEncryptedPayload sB64 ivB64 ctB64 macB64) =
      .ok (sB64, ivB64, ctB64, macB64) := by
  have hs := h sB64 (by simp)
  have hi := h ivB64 (by simp)
  have hc := h ctB64 (by simp)
  have hm := h macB64 (by simp)
  rw [formatEncryptedPayload_shape]
  unfold CryptoManager.parseEncryptedData
  rw [if_neg (not_not_intro (List.isPrefixOf_iff_prefix.mpr ⟨_, rfl⟩))]
  rw [List.drop_left]
  have hsplit : splitOnChar ':' (sB64 ++ ':' :: (ivB64 ++ ':' :: (ctB64 ++ ':' :: macB64))) =
      [sB64, ivB64, ctB64, macB64] := by
    rw [splitOnChar_append_sep ':' sB64 _ hs.1, splitOnChar_append_sep ':' ivB64 _ hi.1,
      splitOnChar_append_sep ':' ctB64 _ hc.1, splitOnChar_noSep ':' macB64 hm.1]
  dsimp only
  rw [hsplit]
  have hne : ¬(sB64 = [] ∨ ivB64 = [] ∨ ctB64 = [] ∨ macB64 = []) := by
    push_neg
    exact ⟨hs.2.1, hi.2.1, hc.2.1, hm.2.1⟩
  simp [hne, hs.2.2, hi.2.2, hc.2.2, hm.2.2]

theorem cryptoDecrypt_formatted (P : CryptoPrimitives) (s : Str)
    (k1 k2 ptBytes sBytes ivBytes ctBytes macBytes : Bytes)
    (hs16 : 16 ≤ s.length)
    (hSne : sBytes ≠ []) (hSb : ∀ b ∈ sBytes, b < 256)
    (hIne : ivBytes ≠ []) (hIb : ∀ b ∈ ivBytes, b < 256)
    (hCne : ctBytes ≠ []) (hCb : ∀ b ∈ ctBytes, b < 256)
    (hMne : macBytes ≠ []) (hMb : ∀ b ∈ macBytes, b < 256)
    (hderive : CryptoManager.deriveKeysWithArgon2 P s (base64Encode sBytes) = .ok (k1, k2))
    (hmacEq : macBytes = P.hmacSha256 k2 (sBytes ++ ivBytes ++ ctBytes))
    (hdec : P.aesGcmDecrypt ivBytes k1 ctBytes = .ok ptBytes) :
    CryptoService.decrypt P (CryptoManager.formatEncryptedPayload (base64Encode sBytes)
      (base64Encode ivBytes) (base64Encode ctBytes) (base64Encode macBytes)) s =
    .ok (P.utf8Decode ptBytes) := by
  have hsne : s ≠ [] := by
    intro h
    rw [h] at hs16
    simp at hs16
  have hvk : CryptoManager.validateSecretKey s = .ok () := by
    unfold CryptoManager.validateSecretKey
    rw [if_neg hsne, if_neg (not_lt.mpr hs16)]
  have hencne : CryptoManager.formatEncryptedPayload (base64Encode sBytes)
      (base64Encode ivBytes) (base64Encode ctBytes) (base64Encode macBytes) ≠ [] := by
    rw [formatEncryptedPayload_shape]
    simp [encHeader]
  have hvi : CryptoManager.validateInputs (CryptoManager.formatEncryptedPayload
      (base64Encode sBytes) (base64Encode ivBytes) (base64Encode ctBytes)
      (base64Encode macBytes)) s = .ok () := by
    unfold CryptoManager.validateInputs
    rw [if_neg hencne, if_neg hsne]
  have hparse := parseEncryptedData_formatted (base64Encode sBytes) (base64Encode ivBytes)
    (base64Encode ctBytes) (base64Encode macBytes) (by
      intro p hp
      rcases List.mem_cons.mp hp with rfl | hp
      · exact ⟨colon_not_mem_base64Encode _, base64Encode_ne_nil _ hSne,
          isValidBase64_base64Encode _ hSne hSb⟩
      rcases List.mem_cons.mp hp with rfl | hp
      · exact ⟨colon_not_mem_base64Encode _, base64Encode_ne_nil _ hIne,
          isValidBase64_base64Encode _ hIne hIb⟩
      rcases List.mem_cons.mp hp with rfl | hp
      · exact ⟨colon_not_mem_base64Encode _, base64Encode_ne_nil _ hCne,
          isValidBase64_base64Encode _ hCne hCb⟩
      rcases List.mem_cons.mp hp with rfl | hp
      · exact ⟨colon_not_mem_base64Encode _, base64Encode_ne_nil _ hMne,
          isValidBase64_base64Encode _ hMne hMb⟩
      · simp at hp)
  have hverify : CryptoManager.verifyHMAC P (base64Encode sBytes) (base64Encode ivBytes)
      (base64Encode ctBytes) (base64Encode macBytes) k2 = .ok () := by
    unfold CryptoManager.verifyHMAC CryptoManager.computeHMAC CryptoManager.prepareHMACData
    rw [base64Decode_encode sBytes hSb, base64Decode_encode ivBytes hIb,
      base64Decode_encode ctBytes hCb, ← hmacEq]
    rw [if_pos ((constantTimeCompare_eq_iff _ _).mpr rfl)]
  have hperform : CryptoManager.performDecryption P (base64Encode ivBytes) k1
      (base64Encode ctBytes) = .ok ptBytes := by
    unfold CryptoManager.performDecryption
    rw [base64Decode_encode ivBytes hIb, base64Decode_encode ctBytes hCb, hdec]
  unfold CryptoService.decrypt
  simp [hvk, hvi, hparse, hderive, hverify, hperform,
    Bind.bind, Except.bind, Pure.pure, Except.pure]

/-- C1 (amended): round trip — for every NON-EMPTY plaintext `v` and valid
secret `s` (and any fresh salt/IV bytes the generator produces),
decrypting the result of encrypting `v` under `s` with the same `s`
returns `v`.  The empty plaintext must be excluded: `validateInputs`
rejects it inside `encrypt`, so no round trip exists there (see the
counterexample).  The external primitives are assumed only to satisfy
their contracts: AES-GCM decryption inverts encryption under the same key
and IV, ciphertexts and MACs are non-empty byte (< 256) sequences whose
bytes stay in range, Argon2 is a function that succeeds, and UTF-8
decoding inverts encoding. -/
theorem claim_C1_round_trip :
    ∀ (P : CryptoPrimitives) (v s : Str) (saltBytes ivBytes : Bytes),
      v ≠ [] → 16 ≤ s.length →
      saltBytes ≠ [] → (∀ b ∈ saltBytes, b < 256) →
      ivBytes ≠ [] → (∀ b ∈ ivBytes, b < 256) →
      (∀ iv k pt, P.aesGcmDecrypt iv k (P.aesGcmEncrypt iv k pt) = .ok pt) →
      (∀ iv k pt, P.aesGcmEncrypt iv k pt ≠ []) →
      (∀ iv k pt, (∀ b ∈ pt, b < 256) → ∀ b ∈ P.aesGcmEncrypt iv k pt, b < 256) →
      (∀ k d, P.hmacSha256 k d ≠ []) →
      (∀ k d, ∀ b ∈ P.hmacSha256 k d, b < 256) →
      (∀ sec sb, ∃ buf, P.argon2Raw sec sb = .ok buf) →
      (∀ w, P.utf8Decode (P.utf8Encode w) = w) →
      (∀ w, ∀ b ∈ P.utf8Encode w, b < 256) →
      (CryptoService.encrypt P v s saltBytes ivBytes).bind
        (fun enc => CryptoService.decrypt P enc s) = .ok v := by
  intro P v s saltBytes ivBytes hv hs16 hSne hSb hIne hIb hinv hencNe hencB hmacNe hmacB
    hargon hutf8 hutf8B
  have hsne : s ≠ [] := by
    intro h
    rw [h] at hs16
    simp at hs16
  have hvk : CryptoManager.validateSecretKey s = .ok () := by
    unfold CryptoManager.validateSecretKey
    rw [if_neg hsne, if_neg (not_lt.mpr hs16)]
  have hvi : CryptoManager.validateInputs v s = .ok () := by
    unfold CryptoManager.validateInputs
    rw [if_neg hv, if_neg hsne]
  obtain ⟨buf, hbuf⟩ := hargon s (base64Decode (base64Encode saltBytes))
  have hsaltNe64 : base64Encode saltBytes ≠ [] := base64Encode_ne_nil _ hSne
  have hsaltValid := isValidBase64_base64Encode saltBytes hSne hSb
  have hderive : CryptoManager.deriveKeysWithArgon2 P s (base64Encode saltBytes) =
      .ok (buf.take 32, buf.drop 32) := by
    unfold CryptoManager.deriveKeysWithArgon2
    rw [if_neg hsaltNe64, if_neg (not_not_intro hsaltValid)]
    dsimp only
    rw [hbuf]
  have hencrypt : CryptoService.encrypt P v s saltBytes ivBytes =
      .ok (CryptoManager.createEncryptedPayload P v (base64Encode saltBytes) ivBytes
        (buf.take 32) (buf.drop 32)) := by
    unfold CryptoService.encrypt
    simp [hvk, hvi, hderive, Bind.bind, Except.bind, Pure.pure, Except.pure]
  have hpayload : CryptoManager.createEncryptedPayload P v (base64Encode saltBytes) ivBytes
      (buf.take 32) (buf.drop 32) =
      CryptoManager.formatEncryptedPayload (base64Encode saltBytes) (base64Encode ivBytes)
        (base64Encode (P.aesGcmEncrypt ivBytes (buf.take 32) (P.utf8Encode v)))
        (base64Encode (P.hmacSha256 (buf.drop 32)
          (saltBytes ++ ivBytes ++ P.aesGcmEncrypt ivBytes (buf.take 32) (P.utf8Encode v)))) := by
    unfold CryptoManager.createEncryptedPayload CryptoManager.computeHMAC
    dsimp only
    rw [base64Decode_encode saltBytes hSb, base64Decode_encode ivBytes hIb,
      base64Decode_encode _ (hencB _ _ _ (hutf8B v))]
  have hdecrypt := cryptoDecrypt_formatted P s (buf.take 32) (buf.drop 32) (P.utf8Encode v)
    saltBytes ivBytes (P.aesGcmEncrypt ivBytes (buf.take 32) (P.utf8Encode v))
    (P.hmacSha256 (buf.drop 32)
      (saltBytes ++ ivBytes ++ P.aesGcmEncrypt ivBytes (buf.take 32) (P.utf8Encode v)))
    hs16 hSne hSb hIne hIb (hencNe _ _ _) (hencB _ _ _ (hutf8B v)) (hmacNe _ _) (hmacB _ _)
    hderive rfl (hinv _ _ _)
  rw [hutf8 v] at hdecrypt
  rw [hencrypt]
  show CryptoService.decrypt P (CryptoManager.createEncryptedPayload P v
    (base64Encode saltBytes) ivBytes (buf.take 32) (buf.drop 32)) s = .ok v
  rw [hpayload]
  exact hdecrypt

theorem toy_aes_inverse : ∀ iv k pt,
    toyPrimitives.aesGcmDecrypt iv k (toyPrimitives.aesGcmEncrypt iv k pt) = .ok pt := by
  intro iv k pt
  simp only [toyPrimitives]
  rw [List.length_append, List.length_replicate, Nat.add_sub_cancel, List.take_left]

theorem toy_aes_ne : ∀ iv k pt, toyPrimitives.aesGcmEncrypt iv k pt ≠ [] := by
  intro iv k pt h
  simp only [toyPrimitives] at h
  have h2 := congrArg List.length h
  simp at h2

theorem toy_aes_bytes : ∀ iv k pt, (∀ b ∈ pt, b < 256) →
    ∀ b ∈ toyPrimitives.aesGcmEncrypt iv k pt, b < 256 := by
  intro iv k pt hpt b hb
  simp only [toyPrimitives] at hb
  rcases List.mem_append.mp hb with hb | hb
  · exact hpt b hb
  · rw [List.eq_of_mem_replicate hb]
    omega

theorem toy_hmac_ne : ∀ k d, toyPrimitives.hmacSha256 k d ≠ [] := by
  intro k d h
  simp only [toyPrimitives] at h
  have h2 := congrArg List.length h
  simp at h2

theorem toy_hmac_bytes : ∀ k d, ∀ b ∈ toyPrimitives.hmacSha256 k d, b < 256 := by
  intro k d b hb
  simp only [toyPrimitives] at hb
  rw [List.eq_of_mem_replicate hb]
  omega

theorem toy_argon : ∀ sec sb, ∃ buf, toyPrimitives.argon2Raw sec sb = .ok buf :=
  fun _ _ => ⟨List.replicate 64 0, rfl⟩

theorem char_toNat_lt_width (c : Char) : c.toNat < 4294967296 := c.val.toNat_lt

theorem toy_utf8_inverse : ∀ w, toyPrimitives.utf8Decode (toyPrimitives.utf8Encode w) = w := by
  intro w
  simp only [toyPrimitives]
  induction w with
  | nil => rfl
  | cons c ws ih =>
    have hN := char_toNat_lt_width c
    show charUnbytes ((charBytes c :: ws.map charBytes).flatten) = c :: ws
    rw [List.flatten_cons]
    show Char.ofNat (c.toNat / 16777216 * 16777216 + c.toNat / 65536 % 256 * 65536 +
      c.toNat / 256 % 256 * 256 + c.toNat % 256) :: charUnbytes ((ws.map charBytes).flatten) =
      c :: ws
    have harith : c.toNat / 16777216 * 16777216 + c.toNat / 65536 % 256 * 65536 +
        c.toNat / 256 % 256 * 256 + c.toNat % 256 = c.toNat := by
      omega
    rw [harith, Char.ofNat_toNat, ih]

theorem toy_utf8_bytes : ∀ w, ∀ b ∈ toyPrimitives.utf8Encode w, b < 256 := by
  intro w b hb
  simp only [toyPrimitives] at hb
  obtain ⟨l, hl, hbl⟩ := List.mem_flatten.mp hb
  obtain ⟨c, -, hc⟩ := List.mem_map.mp hl
  subst hc
  have hN := char_toNat_lt_width c
  simp only [charBytes, List.mem_cons, List.not_mem_nil, or_false] at hbl
  rcases hbl with rfl | rfl | rfl | rfl <;> omega

/-- C1 witness: the round trip evaluated on the concrete plaintext `"hi"`,
the 16-char secret `"0123456789abcdef"`, a 32-byte salt and a 12-byte IV,
with the concrete primitive instantiation `toyPrimitives`. -/
theorem claim_C1_witness :
    (CryptoService.encrypt toyPrimitives ("hi".toList) ("0123456789abcdef".toList)
      (List.replicate 32 7) (List.replicate 12 3)).bind
      (fun enc => CryptoService.decrypt toyPrimitives enc ("0123456789abcdef".toList)) =
    .ok ("hi".toList) :=
  claim_C1_round_trip toyPrimitives ("hi".toList) ("0123456789abcdef".toList)
    (List.replicate 32 7) (List.replicate 12 3) (by decide) (by decide)
    (by decide) (by decide) (by decide) (by decide)
    toy_aes_inverse toy_aes_ne toy_aes_bytes toy_hmac_ne toy_hmac_bytes toy_argon
    toy_utf8_inverse toy_utf8_bytes

/-- C1 counterexample: at the empty plaintext (with a 16-char, hence
valid, secret and fresh 32-byte salt and 12-byte IV) `encrypt` itself
throws the invalid-input error of `validateInputs`, so the round trip
does not return the plaintext — the claim's quantification over EVERY
plaintext string fails at `""`. -/
theorem claim_C1_counterexample :
    (CryptoService.encrypt toyPrimitives ([] : Str) ("0123456789abcdef".toList)
      (List.replicate 32 7) (List.replicate 12 3)).bind
      (fun enc => CryptoService.decrypt toyPrimitives enc ("0123456789abcdef".toList)) =
      .error CryptoErr.invalidInput ∧
    (Except.error CryptoErr.invalidInput : Except CryptoErr Str) ≠ .ok ([] : Str) := by
  constructor
  · rfl
  · simp
